import Mathlib

/-!
Verification of the colocalisation core of `genetics_spark_coloc`.

The development shallowly embeds the two source modules:

* `src/coloc.py` — `logsum`, `posteriors` and `colocalisation`, which operate on
  Spark columns of doubles and arrays of doubles.  Doubles are modelled as real
  numbers; a nullable double column value is modelled as `Option ℝ` (with `none`
  for SQL NULL).  Spark's arithmetic on nullable values propagates NULL, its
  `log` returns NULL on non-positive input, and `array_max` of an empty array is
  NULL; the helpers `oadd`, `omap2`, `slog`, `olog2` and `array_max` reproduce
  exactly these semantics.
* `src/overlaps.py` — `findOverlappingSignals`, which pairs credible sets and
  aligns their per-tag-variant logABF vectors.  A credible set's `all_tags` map
  (built by `map_from_entries` over the collected `(tag_variant_id, logABF)`
  structs) is modelled as an association list; Spark's `map_zip_with` key order
  (keys of the first map in order, then keys of the second map not present in
  the first) is modelled by `zipKeys`.
-/

namespace GeneticsColoc

/-- NULL-propagating addition of nullable doubles (Spark `+`). -/
def oadd : Option ℝ → Option ℝ → Option ℝ
  | none, _ => none
  | some _, none => none
  | some a, some b => some (a + b)

/-- NULL-propagating binary operation on nullable doubles. -/
def omap2 (f : ℝ → ℝ → ℝ) : Option ℝ → Option ℝ → Option ℝ
  | none, _ => none
  | some _, none => none
  | some a, some b => some (f a b)

/-- Spark `F.log`: natural logarithm, NULL on NULL or non-positive input. -/
noncomputable def slog : Option ℝ → Option ℝ
  | none => none
  | some x => if 0 < x then some (Real.log x) else none

/-- Spark `F.log2`: base-2 logarithm, NULL on NULL or non-positive input. -/
noncomputable def olog2 : Option ℝ → Option ℝ
  | none => none
  | some x => if 0 < x then some (Real.logb 2 x) else none

/-- One step of Spark's `array_max` fold: NULL elements are skipped. -/
def arrayMaxStep : Option ℝ → Option ℝ → Option ℝ
  | none, y => y
  | some m, none => some m
  | some m, some y => some (max m y)

/-- Spark `F.array_max`: maximum of the non-NULL elements, NULL when there is
none (in particular on an empty array). -/
def array_max (v : List (Option ℝ)) : Option ℝ :=
  v.foldl arrayMaxStep none

/-- `logsum` from `src/coloc.py`:
`themax = F.array_max(logABF)`;
`expVector = F.transform(logABF, fun c => F.exp (c - themax))`;
`summedval = F.aggregate(expVector, F.lit 0.0, fun acc x => acc + x)`;
result `themax + F.log summedval`. -/
noncomputable def logsum (logABF : List (Option ℝ)) : Option ℝ :=
  let themax := array_max logABF
  let expVector := logABF.map fun c => omap2 (fun x m => Real.exp (x - m)) c themax
  let summedval := expVector.foldl oadd (some 0.0)
  oadd themax (slog summedval)

/-- `posteriors` from `src/coloc.py`:
`theLogsum = logsum allABF`; result `F.transform(allABF, fun c => F.exp (c - theLogsum))`. -/
noncomputable def posteriors (allABF : List (Option ℝ)) : List (Option ℝ) :=
  let theLogsum := logsum allABF
  allABF.map fun c => omap2 (fun x s => Real.exp (x - s)) c theLogsum

/-- Output schema of one row produced by `colocalisation` (the columns that
survive the final clean-up `drop`). -/
structure ColocRow where
  coloc_h0 : Option ℝ
  coloc_h1 : Option ℝ
  coloc_h2 : Option ℝ
  coloc_h3 : Option ℝ
  coloc_h4 : Option ℝ
  coloc_h4_h3 : Option ℝ
  coloc_log2_h4_h3 : Option ℝ

/-- The `allABF` column of `colocalisation`, as a function of the three
logsums (`logsum1`, `logsum2`, `logsum12`) and the three priors:
`[lH0abf, lH1abf, lH2abf, lH3abf, lH4abf]` where
`lH0abf = F.lit 0.0`, `lH1abf = F.log priorc1 + logsum1`,
`lH2abf = F.log priorc2 + logsum2`,
`lH3abf = F.log priorc1 + F.log priorc2 + logdiff` with
`logdiff = max + F.log (F.exp (sumlogsum - max) - F.exp (logsum12 - max))`,
`max = F.greatest sumlogsum logsum12`, `sumlogsum = logsum1 + logsum2`, and
`lH4abf = F.log priorc12 + logsum12`. -/
noncomputable def allABFof (logsum1 logsum2 logsum12 priorc1 priorc2 priorc12 : ℝ) :
    List (Option ℝ) :=
  let sumlogsum := logsum1 + logsum2
  let maxv := max sumlogsum logsum12
  let logdiff :=
    (slog (some (Real.exp (sumlogsum - maxv) - Real.exp (logsum12 - maxv)))).map
      fun t => maxv + t
  let lH0abf : Option ℝ := some 0.0
  let lH1abf := (slog (some priorc1)).map fun lc => lc + logsum1
  let lH2abf := (slog (some priorc2)).map fun lc => lc + logsum2
  let lH3abf := omap2 (fun lc d => lc + d) (oadd (slog (some priorc1)) (slog (some priorc2))) logdiff
  let lH4abf := (slog (some priorc12)).map fun lc => lc + logsum12
  [lH0abf, lH1abf, lH2abf, lH3abf, lH4abf]

/-- The columns `colocalisation` computes for a retained row, given the three
logsums and the priors: the posteriors of `allABF` and the derived ratios
`coloc_h4_h3 = coloc_h4 / coloc_h3` and `coloc_log2_h4_h3 = F.log2 coloc_h4_h3`. -/
noncomputable def mkColocRow (logsum1 logsum2 logsum12 priorc1 priorc2 priorc12 : ℝ) :
    ColocRow :=
  let post := posteriors (allABFof logsum1 logsum2 logsum12 priorc1 priorc2 priorc12)
  let h0 := post.getD 0 none
  let h1 := post.getD 1 none
  let h2 := post.getD 2 none
  let h3 := post.getD 3 none
  let h4 := post.getD 4 none
  let h4_h3 := omap2 (fun a b => a / b) h4 h3
  { coloc_h0 := h0, coloc_h1 := h1, coloc_h2 := h2, coloc_h3 := h3, coloc_h4 := h4,
    coloc_h4_h3 := h4_h3, coloc_log2_h4_h3 := olog2 h4_h3 }

/-- Per-row processing of `colocalisation` from `src/coloc.py` on one overlap
pair with aligned vectors `l = left_logABF` and `r = right_logABF`:
`sum_logABF[i] = left_logABF[i] + right_logABF[i]` (the `arrays_zip`/`transform`
expression, for aligned equal-length vectors), the three logsums, and the filter
`sumlogsum != logsum12` (a row is retained only when the comparison is TRUE; it
is dropped when it is FALSE or NULL, which the `Option.bind` chain reproduces:
if any logsum is NULL the comparison is NULL and the row is dropped).  A
retained row carries the columns of `mkColocRow`. -/
noncomputable def colocRow (l r : List ℝ) (priorc1 priorc2 priorc12 : ℝ) : Option ColocRow :=
  let sum_logABF := List.zipWith (fun a b => a + b) l r
  (logsum (l.map some)).bind fun logsum1 =>
    (logsum (r.map some)).bind fun logsum2 =>
      (logsum (sum_logABF.map some)).bind fun logsum12 =>
        if logsum1 + logsum2 = logsum12 then none
        else some (mkColocRow logsum1 logsum2 logsum12 priorc1 priorc2 priorc12)

/-- `colocalisation` from `src/coloc.py` at the dataframe level: every overlap
pair is processed with `colocRow`; dropped rows are absent from the output. -/
noncomputable def colocalisation (overlappingSignals : List (List ℝ × List ℝ))
    (priorc1 priorc2 priorc12 : ℝ) : List ColocRow :=
  overlappingSignals.filterMap fun p => colocRow p.1 p.2 priorc1 priorc2 priorc12

/-! ### Basic lemmas about the nullable primitives -/

@[simp] lemma oadd_some_some (a b : ℝ) : oadd (some a) (some b) = some (a + b) := rfl

@[simp] lemma oadd_none (x : Option ℝ) : oadd none x = none := rfl

@[simp] lemma omap2_some_some (f : ℝ → ℝ → ℝ) (a b : ℝ) :
    omap2 f (some a) (some b) = some (f a b) := rfl

lemma slog_of_pos {x : ℝ} (h : 0 < x) : slog (some x) = some (Real.log x) := by
  simp [slog, h]

/-- Folding `arrayMaxStep` over non-NULL elements from a non-NULL accumulator
is the plain `max` fold. -/
lemma array_max_go (xs : List ℝ) : ∀ m : ℝ,
    (xs.map some).foldl arrayMaxStep (some m) = some (xs.foldl max m) := by
  induction xs with
  | nil => intro m; rfl
  | cons y ys ih => intro m; simpa [arrayMaxStep] using ih (max m y)

/-- `array_max` of a non-empty array of non-NULL doubles. -/
lemma array_max_cons (x : ℝ) (xs : List ℝ) :
    array_max ((x :: xs).map some) = some (xs.foldl max x) := by
  simpa [array_max, arrayMaxStep] using array_max_go xs x

/-- Folding `oadd` over non-NULL elements from a non-NULL accumulator is plain
summation. -/
lemma foldl_oadd_some (l : List ℝ) : ∀ a : ℝ,
    (l.map some).foldl oadd (some a) = some (a + l.sum) := by
  induction l with
  | nil => intro a; simp
  | cons x xs ih => intro a; simp [ih (a + x), add_assoc]

lemma le_foldl_max (xs : List ℝ) : ∀ x : ℝ,
    x ≤ xs.foldl max x ∧ ∀ c ∈ xs, c ≤ xs.foldl max x := by
  induction xs with
  | nil => intro x; exact ⟨le_refl x, by simp⟩
  | cons y ys ih =>
    intro x
    have hbase : max x y ≤ ys.foldl max (max x y) := (ih (max x y)).1
    refine ⟨le_trans (le_max_left x y) hbase, ?_⟩
    intro c hc
    rcases List.mem_cons.mp hc with hcy | hcys
    · subst hcy; exact le_trans (le_max_right x c) hbase
    · exact (ih (max x y)).2 c hcys

lemma sum_map_exp_pos (x : ℝ) (xs : List ℝ) (f : ℝ → ℝ) (hf : ∀ c, 0 < f c) :
    0 < (((x :: xs).map f).sum) := by
  have htail : 0 ≤ (xs.map f).sum := by
    apply List.sum_nonneg
    intro y hy
    rcases List.mem_map.mp hy with ⟨c, _, rfl⟩
    exact le_of_lt (hf c)
  have : 0 < f x + (xs.map f).sum := by
    have := hf x
    linarith
  simpa using this

/-- The real value `logsum` computes on a non-empty array of non-NULL doubles:
`m + log (Σ exp (vᵢ - m))` with `m` the maximum element. -/
noncomputable def logsumval (x : ℝ) (xs : List ℝ) : ℝ :=
  xs.foldl max x +
    Real.log (((x :: xs).map fun c => Real.exp (c - xs.foldl max x)).sum)

/-- On a non-empty array of non-NULL doubles, `logsum` is non-NULL and equals
`logsumval`. -/
lemma logsum_cons (x : ℝ) (xs : List ℝ) :
    logsum ((x :: xs).map some) = some (logsumval x xs) := by
  have hmax := array_max_cons x xs
  set M := xs.foldl max x with hM
  have hmap :
      ((x :: xs).map some).map
          (fun c => omap2 (fun a m => Real.exp (a - m)) c (some M)) =
        ((x :: xs).map fun c => Real.exp (c - M)).map some := by
    simp [List.map_map, Function.comp, omap2]
  have hpos : 0 < (((x :: xs).map fun c => Real.exp (c - M)).sum) :=
    sum_map_exp_pos x xs _ (fun c => Real.exp_pos (c - M))
  calc logsum ((x :: xs).map some)
      = oadd (some M)
          (slog ((((x :: xs).map fun c => Real.exp (c - M)).map some).foldl oadd
            (some 0.0))) := by
        simp only [logsum, hmax, hmap]
    _ = some (logsumval x xs) := by
        rw [foldl_oadd_some]
        have h00 : (0.0 : ℝ) + (((x :: xs).map fun c => Real.exp (c - M)).sum) =
            (((x :: xs).map fun c => Real.exp (c - M)).sum) := by norm_num
        rw [h00, slog_of_pos hpos]
        simp [logsumval, hM]

/-- `logsumval` equals the naive `log (Σ exp vᵢ)`. -/
lemma logsumval_eq (x : ℝ) (xs : List ℝ) :
    logsumval x xs = Real.log (((x :: xs).map Real.exp).sum) := by
  set M := xs.foldl max x with hM
  have hshift : ∀ v : List ℝ,
      (v.map fun c => Real.exp (c - M)).sum = (v.map Real.exp).sum * Real.exp (-M) := by
    intro v
    induction v with
    | nil => simp
    | cons y ys ih =>
      simp only [List.map_cons, List.sum_cons, ih]
      rw [sub_eq_add_neg, Real.exp_add]
      ring
  have hpos : 0 < (((x :: xs).map Real.exp).sum) :=
    sum_map_exp_pos x xs Real.exp Real.exp_pos
  rw [logsumval, hshift,
    Real.log_mul (ne_of_gt hpos) (ne_of_gt (Real.exp_pos (-M))), Real.log_exp]
  ring

/-- `logsum` of a non-empty array of non-NULL doubles, naive form. -/
lemma logsum_cons_eq (x : ℝ) (xs : List ℝ) :
    logsum ((x :: xs).map some) = some (Real.log (((x :: xs).map Real.exp).sum)) := by
  rw [logsum_cons, logsumval_eq]

/-- `logsum` of a singleton is the element itself. -/
lemma logsum_singleton (a : ℝ) : logsum [some a] = some a := by
  have h := logsum_cons a []
  simpa [logsumval] using h

/-- `logsum` of the empty array is NULL. -/
lemma logsum_nil : logsum ([] : List (Option ℝ)) = none := rfl

/-! ### Embedding of `src/overlaps.py` -/

/-- A credible set after the grouping step of `findOverlappingSignals`: the id
columns (`studyKey`, `lead_variant_id`, `type`) together with the `all_tags`
map from `tag_variant_id` to `logABF` built by `map_from_entries` over the
window partitioned by the id columns.  `studyKey` is
`concat_ws("_", type, study_id, phenotype_id, bio_feature)`; the metadata
columns are pass-through and not modelled.  Rows with NULL `logABF` are
filtered out before the map is built, so the values are plain reals. -/
structure CredibleSet where
  studyKey : String
  lead_variant_id : String
  type : String
  all_tags : List (String × ℝ)

/-- Spark string comparison `left.studyKey > right.studyKey`, lexicographic on
the character sequence (here expressed as `right < left` on the data). -/
def strLt (s t : String) : Bool := decide (s.data < t.data)

/-- Whether two credible sets share at least one `tag_variant_id`.  The source
joins the per-tag exploded rows on `left.tag_variant_id == right.tag_variant_id`,
which pairs two credible sets exactly when some tag key occurs in both. -/
def sharesTag (L R : CredibleSet) : Bool :=
  L.all_tags.any fun t => R.all_tags.any fun u => t.1 == u.1

/-- The self-join of `findOverlappingSignals`: the left side is filtered to
`type == "gwas"`; a candidate right side is kept when the two sides share a
tag variant and `right.type != "gwas" OR left.studyKey > right.studyKey`. -/
def joinPairs (credSet : List CredibleSet) : List (CredibleSet × CredibleSet) :=
  (credSet.filter fun L => L.type == "gwas").flatMap fun L =>
    (credSet.filter fun R =>
        sharesTag L R && (R.type != "gwas" || strLt R.studyKey L.studyKey)).map
      fun R => (L, R)

/-- The deduplication key of `dropDuplicates`: the left and right id columns. -/
def pairKey (p : CredibleSet × CredibleSet) :
    (String × String × String) × (String × String × String) :=
  ((p.1.studyKey, p.1.lead_variant_id, p.1.type),
   (p.2.studyKey, p.2.lead_variant_id, p.2.type))

/-- `dropDuplicates` over the left and right id columns: one record is kept
per key (the first, matching an arbitrary-but-single survivor in Spark). -/
def dropDuplicates (l : List (CredibleSet × CredibleSet)) :
    List (CredibleSet × CredibleSet) :=
  l.foldl (fun acc p => if acc.any fun q => pairKey q == pairKey p then acc else acc ++ [p]) []

/-- The key order of Spark's `map_zip_with m1 m2`: the keys of `m1` in map
order, followed by the keys of `m2` that are not keys of `m1`. -/
def zipKeys (m1 m2 : List (String × ℝ)) : List String :=
  m1.map Prod.fst ++
    (m2.map Prod.fst).filter fun k => decide (k ∉ m1.map Prod.fst)

/-- The `left_logABF` column:
`map_values (map_zip_with left_all_tags right_all_tags (fun k v1 v2 => coalesce v1 0.0))`. -/
def buildLeftLogABF (m1 m2 : List (String × ℝ)) : List ℝ :=
  (zipKeys m1 m2).map fun k => (List.lookup k m1).getD 0.0

/-- The `right_logABF` column:
`map_values (map_zip_with left_all_tags right_all_tags (fun k v1 v2 => coalesce v2 0.0))`. -/
def buildRightLogABF (m1 m2 : List (String × ℝ)) : List ℝ :=
  (zipKeys m1 m2).map fun k => (List.lookup k m2).getD 0.0

/-- One output record of `findOverlappingSignals`: the two credible sets
(carrying their renamed `left_*` / `right_*` columns) and the aligned logABF
vectors. -/
structure OverlapPair where
  left : CredibleSet
  right : CredibleSet
  left_logABF : List ℝ
  right_logABF : List ℝ

/-- `findOverlappingSignals` from `src/overlaps.py` (after the grouping step,
whose output is the `credSet` argument): the filtered self-join, the
deduplication by id columns, and the construction of the aligned logABF
vectors via `map_zip_with`. -/
def findOverlappingSignals (credSet : List CredibleSet) : List OverlapPair :=
  (dropDuplicates (joinPairs credSet)).map fun p =>
    { left := p.1, right := p.2,
      left_logABF := buildLeftLogABF p.1.all_tags p.2.all_tags,
      right_logABF := buildRightLogABF p.1.all_tags p.2.all_tags }

/-! ### Lemmas about the pairing logic -/

lemma mem_foldl_dedup (l : List (CredibleSet × CredibleSet)) :
    ∀ (acc : List (CredibleSet × CredibleSet)) (q : CredibleSet × CredibleSet),
      q ∈ l.foldl
          (fun acc p => if acc.any fun x => pairKey x == pairKey p then acc else acc ++ [p])
          acc →
      q ∈ acc ∨ q ∈ l := by
  induction l with
  | nil => intro acc q h; exact Or.inl h
  | cons p ps ih =>
    intro acc q h
    simp only [List.foldl_cons] at h
    rcases ih _ q h with hacc | hps
    · by_cases hc : acc.any fun x => pairKey x == pairKey p
      · rw [if_pos hc] at hacc
        exact Or.inl hacc
      · rw [if_neg hc] at hacc
        rcases List.mem_append.mp hacc with h1 | h2
        · exact Or.inl h1
        · have hqp : q = p := List.mem_singleton.mp h2
          exact Or.inr (hqp ▸ List.mem_cons_self p ps)
    · exact Or.inr (List.mem_cons_of_mem p hps)

/-- Membership in the deduplicated list implies membership in the original. -/
lemma mem_dropDuplicates {l : List (CredibleSet × CredibleSet)}
    {q : CredibleSet × CredibleSet} (h : q ∈ dropDuplicates l) : q ∈ l := by
  rcases mem_foldl_dedup l [] q h with h0 | h1
  · simp at h0
  · exact h1

/-- Decoding membership in the self-join. -/
lemma mem_joinPairs {credSet : List CredibleSet} {L R : CredibleSet}
    (h : (L, R) ∈ joinPairs credSet) :
    L ∈ credSet ∧ R ∈ credSet ∧ L.type = "gwas" ∧ sharesTag L R = true ∧
      (R.type ≠ "gwas" ∨ R.studyKey.data < L.studyKey.data) := by
  rcases List.mem_flatMap.mp h with ⟨L', hL', hmem⟩
  rcases List.mem_map.mp hmem with ⟨R', hR', heq⟩
  obtain ⟨rfl, rfl⟩ : L' = L ∧ R' = R := by
    constructor <;> [exact congrArg Prod.fst heq; exact congrArg Prod.snd heq]
  have hLf := List.mem_filter.mp hL'
  have hRf := List.mem_filter.mp hR'
  have hcond := hRf.2
  simp only [Bool.and_eq_true, Bool.or_eq_true, bne_iff_ne, strLt,
    decide_eq_true_eq] at hcond
  exact ⟨hLf.1, hRf.1, by simpa using hLf.2, hcond.1, hcond.2⟩

/-! ### Arithmetic lemmas about `logsum` and `colocRow` -/

lemma sum_exp_nonneg (l : List ℝ) : 0 ≤ (l.map Real.exp).sum := by
  apply List.sum_nonneg
  intro y hy
  rcases List.mem_map.mp hy with ⟨c, _, rfl⟩
  exact (Real.exp_pos c).le

/-- The diagonal sum `Σᵢ exp (lᵢ + rᵢ)` is at most the full product
`(Σᵢ exp lᵢ) * (Σⱼ exp rⱼ)`: every diagonal term occurs in the expansion of
the product and all terms are non-negative. -/
lemma sum_exp_zip_le (l : List ℝ) : ∀ r : List ℝ,
    ((List.zipWith (fun a b => a + b) l r).map Real.exp).sum ≤
      (l.map Real.exp).sum * (r.map Real.exp).sum := by
  induction l with
  | nil => intro r; simp
  | cons x xs ih =>
    intro r
    cases r with
    | nil => simp
    | cons y ys =>
      simp only [List.zipWith_cons_cons, List.map_cons, List.sum_cons]
      have hZ := ih ys
      have hA := sum_exp_nonneg xs
      have hB := sum_exp_nonneg ys
      have hx := (Real.exp_pos x).le
      have hy := (Real.exp_pos y).le
      have hxy : Real.exp (x + y) = Real.exp x * Real.exp y := Real.exp_add x y
      nlinarith [mul_nonneg hx hB, mul_nonneg hA hy]

/-- Whenever the three logsums of a pair are non-NULL,
`logsum12 ≤ logsum1 + logsum2`. -/
lemma logsum12_le {l r : List ℝ} {s1 s2 s12 : ℝ}
    (h1 : logsum (l.map some) = some s1) (h2 : logsum (r.map some) = some s2)
    (h12 : logsum ((List.zipWith (fun a b => a + b) l r).map some) = some s12) :
    s12 ≤ s1 + s2 := by
  cases l with
  | nil => rw [show (([] : List ℝ).map some) = [] from rfl, logsum_nil] at h1; cases h1
  | cons x xs =>
    cases r with
    | nil => rw [show (([] : List ℝ).map some) = [] from rfl, logsum_nil] at h2; cases h2
    | cons y ys =>
      rw [logsum_cons_eq] at h1 h2
      rw [List.zipWith_cons_cons, logsum_cons_eq] at h12
      have hs1 : s1 = Real.log (((x :: xs).map Real.exp).sum) := (Option.some.inj h1).symm
      have hs2 : s2 = Real.log (((y :: ys).map Real.exp).sum) := (Option.some.inj h2).symm
      have hs12 : s12 =
          Real.log ((((x + y) :: List.zipWith (fun a b => a + b) xs ys).map Real.exp).sum) :=
        (Option.some.inj h12).symm
      have hposL : 0 < (((x :: xs).map Real.exp).sum) :=
        sum_map_exp_pos x xs Real.exp Real.exp_pos
      have hposR : 0 < (((y :: ys).map Real.exp).sum) :=
        sum_map_exp_pos y ys Real.exp Real.exp_pos
      have hposZ : 0 < ((((x + y) :: List.zipWith (fun a b => a + b) xs ys).map Real.exp).sum) :=
        sum_map_exp_pos (x + y) _ Real.exp Real.exp_pos
      have hle : (((x + y) :: List.zipWith (fun a b => a + b) xs ys).map Real.exp).sum ≤
          (((x :: xs).map Real.exp).sum) * (((y :: ys).map Real.exp).sum) := by
        have := sum_exp_zip_le (x :: xs) (y :: ys)
        simpa [List.zipWith_cons_cons] using this
      rw [hs1, hs2, hs12, ← Real.log_mul (ne_of_gt hposL) (ne_of_gt hposR)]
      exact Real.log_le_log hposZ hle

/-- A pair of singleton vectors is always dropped by the degeneracy filter:
`logsum [a] = a`, `logsum [b] = b` and `logsum [a + b] = a + b`. -/
lemma colocRow_singleton (a b priorc1 priorc2 priorc12 : ℝ) :
    colocRow [a] [b] priorc1 priorc2 priorc12 = none := by
  simp only [colocRow, List.zipWith_cons_cons, List.zipWith_nil_right, List.map_cons,
    List.map_nil, logsum_singleton, Option.some_bind]
  simp

/-- Emission by `colocRow` does not depend on the priors: the only filter
compares `sumlogsum` with `logsum12`, which are computed from the vectors
alone. -/
lemma colocRow_isSome_indep (l r : List ℝ) (c1 c2 c12 d1 d2 d12 : ℝ) :
    (colocRow l r c1 c2 c12).isSome = (colocRow l r d1 d2 d12).isSome := by
  simp only [colocRow]
  cases h1 : logsum (l.map some) with
  | none => rfl
  | some s1 =>
    cases h2 : logsum (r.map some) with
    | none => rfl
    | some s2 =>
      cases h12 : logsum ((List.zipWith (fun a b => a + b) l r).map some) with
      | none => rfl
      | some s12 =>
        simp only [Option.some_bind]
        by_cases h : s1 + s2 = s12
        · rw [if_pos h, if_pos h]
        · rw [if_neg h, if_neg h]
          rfl

/-- `logsum` on the concrete vector `[0, 0]` is `log 2`. -/
lemma logsum_zero_zero : logsum ((([0, 0] : List ℝ)).map some) = some (Real.log 2) := by
  have h := logsum_cons_eq 0 [0]
  have h2 : ((([0, 0] : List ℝ)).map Real.exp).sum = 2 := by
    simp [Real.exp_zero]
    norm_num
  rw [show ([(0 : ℝ), 0]) = ((0 : ℝ) :: [0]) from rfl] at h2 ⊢
  rw [h, h2]

lemma log_two_ne : Real.log 2 + Real.log 2 ≠ Real.log 2 := by
  have := Real.log_pos (show (1 : ℝ) < 2 by norm_num)
  intro h
  linarith

/-- Decoding membership in the output of `findOverlappingSignals`. -/
lemma mem_findOverlappingSignals {credSet : List CredibleSet} {p : OverlapPair}
    (h : p ∈ findOverlappingSignals credSet) :
    p.left ∈ credSet ∧ p.right ∈ credSet ∧ p.left.type = "gwas" ∧
      sharesTag p.left p.right = true ∧
      (p.right.type ≠ "gwas" ∨ p.right.studyKey.data < p.left.studyKey.data) ∧
      p.left_logABF = buildLeftLogABF p.left.all_tags p.right.all_tags ∧
      p.right_logABF = buildRightLogABF p.left.all_tags p.right.all_tags := by
  rcases List.mem_map.mp h with ⟨pr, hpr, heq⟩
  have hj := mem_joinPairs (mem_dropDuplicates hpr)
  subst heq
  exact ⟨hj.1, hj.2.1, hj.2.2.1, hj.2.2.2.1, hj.2.2.2.2, rfl, rfl⟩

/-! ### Claim theorems -/

/-- C3: for every non-empty sequence `v` of finite real-valued log-space
numbers, `logsum v` equals `log (Σ exp vᵢ)`, and it is computed as
`m + log (Σ exp (vᵢ - m))` with `m = max vᵢ`, so that every exponentiated term
lies in `(0, 1]`. -/
theorem claim_C3_logsum (v : List ℝ) (hv : v ≠ []) :
    ∃ m : ℝ, array_max (v.map some) = some m ∧ (∀ c ∈ v, c ≤ m) ∧
      logsum (v.map some) = some (m + Real.log ((v.map fun c => Real.exp (c - m)).sum)) ∧
      logsum (v.map some) = some (Real.log ((v.map Real.exp).sum)) ∧
      ∀ c ∈ v, 0 < Real.exp (c - m) ∧ Real.exp (c - m) ≤ 1 := by
  cases v with
  | nil => exact absurd rfl hv
  | cons x xs =>
    have hmem : ∀ c ∈ x :: xs, c ≤ xs.foldl max x := by
      intro c hc
      rcases List.mem_cons.mp hc with rfl | h
      · exact (le_foldl_max xs c).1
      · exact (le_foldl_max xs x).2 c h
    refine ⟨xs.foldl max x, array_max_cons x xs, hmem, ?_, logsum_cons_eq x xs, ?_⟩
    · rw [logsum_cons]
      rfl
    · intro c hc
      refine ⟨Real.exp_pos _, ?_⟩
      have hcm := hmem c hc
      have : c - xs.foldl max x ≤ 0 := by linarith
      calc Real.exp (c - xs.foldl max x) ≤ Real.exp 0 := Real.exp_le_exp.mpr this
        _ = 1 := Real.exp_zero

/-- Witness for C3 at the concrete input `v = [0]`. -/
theorem claim_C3_logsum_witness :
    ∃ m : ℝ, array_max ([(0 : ℝ)].map some) = some m ∧ (∀ c ∈ [(0 : ℝ)], c ≤ m) ∧
      logsum ([(0 : ℝ)].map some) =
        some (m + Real.log (([(0 : ℝ)].map fun c => Real.exp (c - m)).sum)) ∧
      logsum ([(0 : ℝ)].map some) = some (Real.log (([(0 : ℝ)].map Real.exp).sum)) ∧
      ∀ c ∈ [(0 : ℝ)], 0 < Real.exp (c - m) ∧ Real.exp (c - m) ≤ 1 :=
  claim_C3_logsum [0] (by simp)

/-- C10 (counterexample to the claim as stated): applied to an empty input
array, `logsum` does not fail with a domain error — the embedded Spark
expression is total and evaluates to NULL (`array_max` of an empty array is
NULL and `F.log 0.0` is NULL, and NULL propagates through `+`). -/
theorem claim_C10_counterexample : logsum ([] : List (Option ℝ)) = none :=
  logsum_nil

/-- C10 (amended): on an empty input sequence `logsum` evaluates to NULL
rather than raising a domain error; on every non-empty sequence of finite
reals its result is a finite real. -/
theorem claim_C10_amended : logsum ([] : List (Option ℝ)) = none ∧
    ∀ (x : ℝ) (xs : List ℝ), ∃ rv : ℝ, logsum ((x :: xs).map some) = some rv :=
  ⟨logsum_nil, fun x xs => ⟨logsumval x xs, logsum_cons x xs⟩⟩

/-- C9: for every pair whose aligned vectors both have length one, and for all
prior values, `colocalisation` emits no output row: `logsum` of a singleton
`[x]` is `x`, so `sumlogsum = a + b = logsum12` exactly and the degeneracy
filter removes the row. -/
theorem claim_C9_singleton (a b priorc1 priorc2 priorc12 : ℝ) :
    logsum [some a] = some a ∧ logsum [some b] = some b ∧
      logsum [some (a + b)] = some (a + b) ∧
      colocRow [a] [b] priorc1 priorc2 priorc12 = none :=
  ⟨logsum_singleton a, logsum_singleton b, logsum_singleton (a + b),
    colocRow_singleton a b priorc1 priorc2 priorc12⟩

/-- C8 (counterexample to the claim as stated): with priors `1e-4`, `1e-4`,
`1e-5` and the pair `left_logABF = [5.0]`, `right_logABF = [5.0]`, the code
emits no output row at all (so no row with a dominant `coloc_h4` exists):
`sumlogsum = 5 + 5 = logsum12` exactly and the filter drops the pair. -/
theorem claim_C8_counterexample :
    (colocRow [5] [5] (1e-4) (1e-4) (1e-5)).isNone = true := by
  rw [colocRow_singleton]
  rfl

/-- C8 (amended): with priors `1e-4`, `1e-4`, `1e-5` and the overlap pair
`left_logABF = [5.0]`, `right_logABF = [5.0]`, `colocalisation` produces no
output row: `logsum [5.0] = 5.0`, so `sumlogsum = 10.0 = logsum12` exactly and
the degeneracy filter drops the pair instead of emitting posteriors. -/
theorem claim_C8_amended :
    logsum [some (5 : ℝ)] = some 5 ∧
      colocRow [5] [5] (1e-4) (1e-4) (1e-5) = none :=
  ⟨logsum_singleton 5, colocRow_singleton 5 5 (1e-4) (1e-4) (1e-5)⟩

/-- C4: if `sumlogsum = logsum1 + logsum2` is exactly equal to `logsum12`, the
pair is silently dropped (no output row), and every emitted output row has
`sumlogsum` different from `logsum12`. -/
theorem claim_C4_degeneracy (l r : List ℝ) (priorc1 priorc2 priorc12 s1 s2 s12 : ℝ)
    (h1 : logsum (l.map some) = some s1) (h2 : logsum (r.map some) = some s2)
    (h12 : logsum ((List.zipWith (fun a b => a + b) l r).map some) = some s12) :
    (s1 + s2 = s12 → colocRow l r priorc1 priorc2 priorc12 = none) ∧
      ∀ row, colocRow l r priorc1 priorc2 priorc12 = some row → s1 + s2 ≠ s12 := by
  have hrow : colocRow l r priorc1 priorc2 priorc12 =
      if s1 + s2 = s12 then none
      else some (mkColocRow s1 s2 s12 priorc1 priorc2 priorc12) := by
    simp only [colocRow, h1, h2, h12, Option.some_bind]
  constructor
  · intro heq
    rw [hrow, if_pos heq]
  · intro row hsome heq
    rw [hrow, if_pos heq] at hsome
    cases hsome

/-- Witness for C4 at the concrete degenerate input `l = [1]`, `r = [2]`. -/
theorem claim_C4_degeneracy_witness : colocRow [1] [2] (1/2 : ℝ) (1/2) (1/2) = none :=
  (claim_C4_degeneracy [1] [2] (1/2) (1/2) (1/2) 1 2 (1 + 2) (logsum_singleton 1)
    (logsum_singleton 2) (logsum_singleton (1 + 2))).1 rfl

/-- C7 (counterexample to the claim as stated): `colocalisation` performs no
validation of the priors.  With `priorc1 = 2`, which lies outside the open
interval `(0, 1)`, the pair `([0, 0], [0, 0])` is still processed and an
output row is emitted — no validation error is raised before processing. -/
theorem claim_C7_counterexample : (colocRow [0, 0] [0, 0] 2 2 2).isSome = true := by
  simp only [colocRow]
  rw [show List.zipWith (fun a b => a + b) ([0, 0] : List ℝ) [0, 0] = [0, 0] by norm_num]
  simp only [logsum_zero_zero, Option.some_bind]
  rw [if_neg log_two_ne]
  rfl

/-- C7 (amended): the code performs no validation of the priors at all; the
set of pairs that are processed and emitted does not depend on the prior
values (valid or not), so in particular no error is raised for priors outside
`(0, 1)` — invalid priors flow into the per-row arithmetic instead. -/
theorem claim_C7_amended (overlappingSignals : List (List ℝ × List ℝ))
    (c1 c2 c12 d1 d2 d12 : ℝ) :
    (colocalisation overlappingSignals c1 c2 c12).length =
      (colocalisation overlappingSignals d1 d2 d12).length := by
  induction overlappingSignals with
  | nil => rfl
  | cons p ps ih =>
    simp only [colocalisation] at ih ⊢
    rw [List.filterMap_cons, List.filterMap_cons]
    have h := colocRow_isSome_indep p.1 p.2 c1 c2 c12 d1 d2 d12
    cases hc : colocRow p.1 p.2 c1 c2 c12 with
    | none =>
      cases hd : colocRow p.1 p.2 d1 d2 d12 with
      | none => exact ih
      | some row => rw [hc, hd] at h; cases h
    | some row =>
      cases hd : colocRow p.1 p.2 d1 d2 d12 with
      | none => rw [hc, hd] at h; cases h
      | some row2 => simpa using ih

/-- C6: for every 5-element sequence of log-Bayes-factors, `posteriors`
returns the 5-element sequence `pᵢ = exp (lHᵢ - LogSumExp lH)`; each `pᵢ` lies
in `[0, 1]` and the `pᵢ` sum to exactly 1 (in particular within the `1e-9`
absolute tolerance). -/
theorem claim_C6_posteriors (a0 a1 a2 a3 a4 : ℝ) :
    ∃ s : ℝ, logsum ([a0, a1, a2, a3, a4].map some) = some s ∧
      posteriors ([a0, a1, a2, a3, a4].map some) =
        [some (Real.exp (a0 - s)), some (Real.exp (a1 - s)), some (Real.exp (a2 - s)),
         some (Real.exp (a3 - s)), some (Real.exp (a4 - s))] ∧
      (∀ c ∈ [a0, a1, a2, a3, a4], 0 ≤ Real.exp (c - s) ∧ Real.exp (c - s) ≤ 1) ∧
      Real.exp (a0 - s) + Real.exp (a1 - s) + Real.exp (a2 - s) + Real.exp (a3 - s) +
          Real.exp (a4 - s) = 1 ∧
      |Real.exp (a0 - s) + Real.exp (a1 - s) + Real.exp (a2 - s) + Real.exp (a3 - s) +
          Real.exp (a4 - s) - 1| ≤ 1e-9 := by
  have hS : logsum ([a0, a1, a2, a3, a4].map some) =
      some (Real.log (([a0, a1, a2, a3, a4].map Real.exp).sum)) :=
    logsum_cons_eq a0 [a1, a2, a3, a4]
  have hSpos : 0 < (([a0, a1, a2, a3, a4].map Real.exp).sum) :=
    sum_map_exp_pos a0 [a1, a2, a3, a4] Real.exp Real.exp_pos
  set S := (([a0, a1, a2, a3, a4].map Real.exp).sum) with hSdef
  have hsum : Real.exp a0 + Real.exp a1 + Real.exp a2 + Real.exp a3 + Real.exp a4 = S := by
    rw [hSdef]
    simp
    ring
  have hdiv : ∀ c : ℝ, Real.exp (c - Real.log S) = Real.exp c / S := by
    intro c
    rw [Real.exp_sub, Real.exp_log hSpos]
  have hone : Real.exp (a0 - Real.log S) + Real.exp (a1 - Real.log S) +
      Real.exp (a2 - Real.log S) + Real.exp (a3 - Real.log S) +
      Real.exp (a4 - Real.log S) = 1 := by
    rw [hdiv, hdiv, hdiv, hdiv, hdiv]
    field_simp
    linarith [hsum]
  refine ⟨Real.log S, hS, ?_, ?_, hone, by rw [hone]; norm_num⟩
  · simp only [posteriors, List.map_cons, List.map_nil]
    rw [show logsum [some a0, some a1, some a2, some a3, some a4] = some (Real.log S) from hS]
    simp only [omap2_some_some]
  · intro c hc
    refine ⟨(Real.exp_pos _).le, ?_⟩
    have hcS : Real.exp c ≤ S := by
      rw [hSdef]
      apply List.single_le_sum
      · intro x hx
        rcases List.mem_map.mp hx with ⟨y, _, rfl⟩
        exact (Real.exp_pos y).le
      · exact List.mem_map.mpr ⟨c, hc, rfl⟩
    rw [hdiv]
    exact div_le_one_of_le₀ hcS hSpos.le

/-- C2: for every aligned pair it processes (equal-length vectors, valid
priors), `colocalisation` computes the five hypothesis log-Bayes-factors as
`lH0 = 0`, `lH1 = log priorc1 + logsum1`, `lH2 = log priorc2 + logsum2`,
`lH3 = log priorc1 + log priorc2 + M + log (exp (sumlogsum - M) - exp (logsum12 - M))`
with `sumlogsum = logsum1 + logsum2` and `M = max sumlogsum logsum12`, and
`lH4 = log priorc12 + logsum12`, where `logsum1`, `logsum2`, `logsum12` are
the `logsum` values of `left_logABF`, `right_logABF` and their pointwise sum. -/
theorem claim_C2_formulas (l r : List ℝ) (priorc1 priorc2 priorc12 s1 s2 s12 : ℝ)
    (_hlen : l.length = r.length)
    (h1 : logsum (l.map some) = some s1) (h2 : logsum (r.map some) = some s2)
    (h12 : logsum ((List.zipWith (fun a b => a + b) l r).map some) = some s12)
    (hne : s1 + s2 ≠ s12)
    (hc1 : 0 < priorc1) (_hc1b : priorc1 < 1)
    (hc2 : 0 < priorc2) (_hc2b : priorc2 < 1)
    (hc12 : 0 < priorc12) (_hc12b : priorc12 < 1) :
    colocRow l r priorc1 priorc2 priorc12 =
        some (mkColocRow s1 s2 s12 priorc1 priorc2 priorc12) ∧
      allABFof s1 s2 s12 priorc1 priorc2 priorc12 =
        [some 0.0,
         some (Real.log priorc1 + s1),
         some (Real.log priorc2 + s2),
         some (Real.log priorc1 + Real.log priorc2 +
           (max (s1 + s2) s12 +
             Real.log (Real.exp (s1 + s2 - max (s1 + s2) s12) -
               Real.exp (s12 - max (s1 + s2) s12)))),
         some (Real.log priorc12 + s12)] := by
  have hlt : s12 < s1 + s2 := lt_of_le_of_ne (logsum12_le h1 h2 h12) (Ne.symm hne)
  have harg : 0 < Real.exp (s1 + s2 - max (s1 + s2) s12) -
      Real.exp (s12 - max (s1 + s2) s12) := by
    have hexp : Real.exp (s12 - max (s1 + s2) s12) <
        Real.exp (s1 + s2 - max (s1 + s2) s12) :=
      Real.exp_lt_exp.mpr (by linarith)
    linarith
  constructor
  · simp only [colocRow, h1, h2, h12, Option.some_bind]
    rw [if_neg hne]
  · simp only [allABFof]
    rw [slog_of_pos hc1, slog_of_pos hc2, slog_of_pos hc12, slog_of_pos harg]
    rfl

/-- Witness for C2 at the concrete pair `([0, 0], [0, 0])` with all priors
`1/2`: the logsums are `log 2`, `log 2` and `log 2`. -/
theorem claim_C2_formulas_witness :
    colocRow [0, 0] [0, 0] (1/2 : ℝ) (1/2) (1/2) =
        some (mkColocRow (Real.log 2) (Real.log 2) (Real.log 2) (1/2) (1/2) (1/2)) ∧
      allABFof (Real.log 2) (Real.log 2) (Real.log 2) (1/2 : ℝ) (1/2) (1/2) =
        [some 0.0,
         some (Real.log (1/2) + Real.log 2),
         some (Real.log (1/2) + Real.log 2),
         some (Real.log (1/2) + Real.log (1/2) +
           (max (Real.log 2 + Real.log 2) (Real.log 2) +
             Real.log
               (Real.exp (Real.log 2 + Real.log 2 - max (Real.log 2 + Real.log 2) (Real.log 2)) -
                 Real.exp (Real.log 2 - max (Real.log 2 + Real.log 2) (Real.log 2))))),
         some (Real.log (1/2) + Real.log 2)] := by
  have h12 : logsum ((List.zipWith (fun a b => a + b) ([0, 0] : List ℝ) [0, 0]).map some) =
      some (Real.log 2) := by
    rw [show List.zipWith (fun a b => a + b) ([0, 0] : List ℝ) [0, 0] = [0, 0] by norm_num]
    exact logsum_zero_zero
  exact claim_C2_formulas [0, 0] [0, 0] (1/2) (1/2) (1/2) (Real.log 2) (Real.log 2) (Real.log 2)
    rfl logsum_zero_zero logsum_zero_zero h12 log_two_ne (by norm_num) (by norm_num)
    (by norm_num) (by norm_num) (by norm_num) (by norm_num)

/-! ### Alignment lemmas for `zipKeys` and the C1/C5 claims -/

lemma zipKeys_nodup {m1 m2 : List (String × ℝ)} (h1 : (m1.map Prod.fst).Nodup)
    (h2 : (m2.map Prod.fst).Nodup) : (zipKeys m1 m2).Nodup := by
  unfold zipKeys
  refine List.Nodup.append h1 (h2.filter _) ?_
  intro k hk1 hk2
  have hdec := List.of_mem_filter hk2
  exact absurd hk1 (of_decide_eq_true hdec)

lemma zipKeys_toFinset (m1 m2 : List (String × ℝ)) :
    (zipKeys m1 m2).toFinset =
      (m1.map Prod.fst).toFinset ∪ (m2.map Prod.fst).toFinset := by
  ext k
  simp only [zipKeys, List.toFinset_append, Finset.mem_union, List.mem_toFinset,
    List.mem_filter, decide_eq_true_eq]
  constructor
  · rintro (h | h)
    · exact Or.inl h
    · exact Or.inr h.1
  · rintro (h | h)
    · exact Or.inl h
    · by_cases hk : k ∈ m1.map Prod.fst
      · exact Or.inl hk
      · exact Or.inr ⟨h, hk⟩

/-- C1: for every retained overlap pair, the aligned vectors `left_logABF` and
`right_logABF` have equal length, equal to the size of the union of
`tag_variant_id` keys of the two credible sets; both vectors are indexed over
one fixed ordering `U` of that union, with the looked-up `logABF` of the own
side at each position and `0.0` substituted where the own side lacks the tag
variant. -/
theorem claim_C1_alignment (credSet : List CredibleSet)
    (hkeys : ∀ c ∈ credSet, (c.all_tags.map Prod.fst).Nodup)
    (p : OverlapPair) (hp : p ∈ findOverlappingSignals credSet) :
    ∃ U : List String,
      U.Nodup ∧
      U.toFinset = (p.left.all_tags.map Prod.fst).toFinset ∪
        (p.right.all_tags.map Prod.fst).toFinset ∧
      p.left_logABF = U.map (fun k => (List.lookup k p.left.all_tags).getD 0.0) ∧
      p.right_logABF = U.map (fun k => (List.lookup k p.right.all_tags).getD 0.0) ∧
      p.left_logABF.length = p.right_logABF.length ∧
      p.left_logABF.length =
        ((p.left.all_tags.map Prod.fst).toFinset ∪
          (p.right.all_tags.map Prod.fst).toFinset).card := by
  obtain ⟨hL, hR, _, _, _, hleft, hright⟩ := mem_findOverlappingSignals hp
  have hn := zipKeys_nodup (hkeys _ hL) (hkeys _ hR)
  refine ⟨zipKeys p.left.all_tags p.right.all_tags, hn, zipKeys_toFinset _ _,
    ?_, ?_, ?_, ?_⟩
  · rw [hleft]; rfl
  · rw [hright]; rfl
  · rw [hleft, hright, buildLeftLogABF, buildRightLogABF, List.length_map, List.length_map]
  · rw [hleft, buildLeftLogABF, List.length_map, ← zipKeys_toFinset,
      List.toFinset_card_of_nodup hn]

/-- C5: every emitted overlap pair has a gwas left side, is never a self-pair,
shares at least one tag variant between its two sides, retains a gwas right
side only when `left.studyKey` is lexicographically greater, and consequently
at most one direction of any pair of credible sets ever appears. -/
theorem claim_C5_pairing (credSet : List CredibleSet) :
    (∀ p ∈ findOverlappingSignals credSet,
        p.left.type = "gwas" ∧ p.left ≠ p.right ∧
        (∃ k, k ∈ p.left.all_tags.map Prod.fst ∧ k ∈ p.right.all_tags.map Prod.fst) ∧
        (p.right.type = "gwas" → p.right.studyKey.data < p.left.studyKey.data)) ∧
      ∀ p ∈ findOverlappingSignals credSet, ∀ q ∈ findOverlappingSignals credSet,
        q.left = p.right → q.right = p.left → False := by
  have hprops : ∀ p ∈ findOverlappingSignals credSet,
      p.left.type = "gwas" ∧ p.left ≠ p.right ∧
      (∃ k, k ∈ p.left.all_tags.map Prod.fst ∧ k ∈ p.right.all_tags.map Prod.fst) ∧
      (p.right.type = "gwas" → p.right.studyKey.data < p.left.studyKey.data) := by
    intro p hp
    obtain ⟨_, _, hgwas, hshare, hor, _, _⟩ := mem_findOverlappingSignals hp
    have hk : ∃ k, k ∈ p.left.all_tags.map Prod.fst ∧ k ∈ p.right.all_tags.map Prod.fst := by
      rcases List.any_eq_true.mp hshare with ⟨t, ht, hinner⟩
      rcases List.any_eq_true.mp hinner with ⟨u, hu, hbeq⟩
      have htu : t.1 = u.1 := by simpa using hbeq
      exact ⟨t.1, List.mem_map.mpr ⟨t, ht, rfl⟩, List.mem_map.mpr ⟨u, hu, htu.symm⟩⟩
    refine ⟨hgwas, ?_, hk, ?_⟩
    · rcases hor with hne | hlt
      · intro heq
        apply hne
        rw [← heq]
        exact hgwas
      · intro heq
        rw [heq] at hlt
        exact lt_irrefl _ hlt
    · rcases hor with hne | hlt
      · intro htype
        exact absurd htype hne
      · intro _
        exact hlt
  refine ⟨hprops, ?_⟩
  intro p hp q hq hql hqr
  have hpp := hprops p hp
  have hqq := hprops q hq
  have hqgwas : q.left.type = "gwas" := hqq.1
  have hpgwas : p.left.type = "gwas" := hpp.1
  have hprt : p.right.type = "gwas" := by rw [← hql]; exact hqgwas
  have h1 : p.right.studyKey.data < p.left.studyKey.data := hpp.2.2.2 hprt
  have hqrt : q.right.type = "gwas" := by rw [hqr]; exact hpgwas
  have h2 : q.right.studyKey.data < q.left.studyKey.data := hqq.2.2.2 hqrt
  rw [hql, hqr] at h2
  exact absurd h1 (lt_asymm h2)

/-! ### Concrete credible sets used by the C1 and C5 witnesses -/

/-- A gwas credible set with two tag variants. -/
def wsGwas : CredibleSet :=
  ⟨"gwas_s1_p_-", "1_1_A_T", "gwas", [("tag1", 1.0), ("tag2", 2.0)]⟩

/-- A molecular-trait credible set sharing `tag2` with `wsGwas`. -/
def wsEqtl : CredibleSet :=
  ⟨"eqtl_s2_p_b", "1_2_A_T", "eqtl", [("tag2", 3.0)]⟩

/-- A second gwas credible set, with a lexicographically smaller study key
than `wsGwas`, sharing `tag1` with it. -/
def wsGwas2 : CredibleSet :=
  ⟨"gwas_s0_p_-", "1_3_A_T", "gwas", [("tag1", 4.0)]⟩

/-- The single pair produced for `[wsGwas, wsEqtl]`. -/
def wsPair : OverlapPair := ⟨wsGwas, wsEqtl, [1.0, 2.0], [0.0, 3.0]⟩

/-- The single pair produced for `[wsGwas, wsGwas2]`. -/
def wsPairG : OverlapPair := ⟨wsGwas, wsGwas2, [1.0, 2.0], [4.0, 0.0]⟩

lemma find_ws_eqtl : findOverlappingSignals [wsGwas, wsEqtl] = [wsPair] := rfl

lemma find_ws_gwas : findOverlappingSignals [wsGwas, wsGwas2] = [wsPairG] := rfl

lemma wsPair_mem : wsPair ∈ findOverlappingSignals [wsGwas, wsEqtl] := by
  rw [find_ws_eqtl]
  exact List.mem_singleton.mpr rfl

lemma wsPairG_mem : wsPairG ∈ findOverlappingSignals [wsGwas, wsGwas2] := by
  rw [find_ws_gwas]
  exact List.mem_singleton.mpr rfl

lemma ws_keys_nodup : ∀ c ∈ [wsGwas, wsEqtl], (c.all_tags.map Prod.fst).Nodup := by
  intro c hc
  rcases List.mem_cons.mp hc with rfl | hc2
  · decide
  · rcases List.mem_singleton.mp hc2 with rfl
    decide

/-- Witness for C1 at the concrete collection `[wsGwas, wsEqtl]` and its
single emitted pair `wsPair`. -/
theorem claim_C1_alignment_witness :
    ∃ U : List String,
      U.Nodup ∧
      U.toFinset = (wsPair.left.all_tags.map Prod.fst).toFinset ∪
        (wsPair.right.all_tags.map Prod.fst).toFinset ∧
      wsPair.left_logABF = U.map (fun k => (List.lookup k wsPair.left.all_tags).getD 0.0) ∧
      wsPair.right_logABF = U.map (fun k => (List.lookup k wsPair.right.all_tags).getD 0.0) ∧
      wsPair.left_logABF.length = wsPair.right_logABF.length ∧
      wsPair.left_logABF.length =
        ((wsPair.left.all_tags.map Prod.fst).toFinset ∪
          (wsPair.right.all_tags.map Prod.fst).toFinset).card :=
  claim_C1_alignment [wsGwas, wsEqtl] ws_keys_nodup wsPair wsPair_mem

/-- Witness for C5 at the concrete collection `[wsGwas, wsGwas2]` (a
gwas–gwas comparison) and its single emitted pair `wsPairG`. -/
theorem claim_C5_pairing_witness :
    wsPairG.left.type = "gwas" ∧ wsPairG.left ≠ wsPairG.right ∧
      (∃ k, k ∈ wsPairG.left.all_tags.map Prod.fst ∧
        k ∈ wsPairG.right.all_tags.map Prod.fst) ∧
      (wsPairG.right.type = "gwas" →
        wsPairG.right.studyKey.data < wsPairG.left.studyKey.data) :=
  (claim_C5_pairing [wsGwas, wsGwas2]).1 wsPairG wsPairG_mem

end GeneticsColoc
